import Mathlib

/-!
Verification development for the nrs-lib-ts aggregation engine and its
DAH_standards extension.

Sources under `src/`:
* `src/data.ts` — entity graph model (`Entry`, `Impact`, `Relation`, `Data`,
  `indexEntry`); embedded directly below.
* `src/exts/DAH_standards.ts` — the standards extension (impact/relation
  constructors, `mapClampThrow`, period helpers); embedded directly below.

The remaining modules of the repository (`process.ts` with `Context`,
`combine` and the propagation engine, `math.ts` with `Vector`/`Matrix`,
`utils.ts` with `assert`, `ext.ts` with the extension resolver, and
`exts/DAH_factors.ts` with the factor catalog) are not present in the
source tree; where a claim depends on them they are modelled from the
specification, and each such definition carries a doc comment starting
with `Modelled from the spec:`.

Numeric conventions: the engine and Combine are modelled over exact
rationals (the spec states algebraic laws about plain nonnegative
numbers; float rounding is out of scope).  The DAH_standards constructors
perform genuinely float-flavoured arithmetic (`Math.pow` with fractional
exponents, which is `NaN` on negative bases), so their score magnitudes
are modelled as `Option ℝ`, where `none` stands for a non-finite
JavaScript number (`NaN`, or `±Infinity` from division by zero).
`DAH_meta` provenance payloads are opaque to the engine (spec section 6)
and are not modelled.
-/

/-- Entry identifier: an opaque string (`data.ts`: `export type Id = string`). -/
abbrev EntryId := String

/-- The failure taxonomy of spec section 7.  Extension-local validation
errors (thrown `Error`s in `DAH_standards.ts`) are the `validation` case. -/
inductive Err where
  | unknownFactor (name : String)
  | dimensionMismatch
  | danglingReference (id : EntryId)
  | cyclicEntryGraph
  | emptyCombineInput
  | extensionDependencyError
  | validation (msg : String)
deriving DecidableEq

/-- True exactly on `Except.error`; models "the call throws". -/
def isErr : Except Err α → Bool
  | .error _ => true
  | .ok _ => false

/-- Modelled from the spec: `Context` lives in the missing `process.ts`.
Section 4.1: an immutable handle fixing `factorCount` and, for each factor
index, the `subscoreWeight` used by Combine during propagation. -/
structure Context where
  factorCount : Nat
  subscoreWeights : List ℚ

/-- Engine-side vector: `factorCount` rational magnitudes (spec section 3). -/
abbrev EVector := List ℚ

/-- Modelled from the spec: `Matrix` lives in the missing `math.ts`.
Section 9 prescribes a tagged union; a plain-number scalar kind is
included because `DAH_standards.ts` builds `contributors` maps whose
values are plain numbers. -/
inductive EMatrix where
  | scalar (c : ℚ)
  | diagonal (d : EVector)
  | full (rows : List EVector)
deriving DecidableEq

/-- Modelled from the spec: `newZeroVector` lives in the missing
`process.ts`.  Section 4.1: a vector of `factorCount` zeros. -/
def newZeroEVector (context : Context) : EVector :=
  List.replicate context.factorCount 0

/-! ### The Combine algorithm

Modelled from the spec: `combine` lives in the missing `process.ts`.
Section 4.3 fixes its contract (fail on empty input, identity at `n = 1`,
zero absorption, commutativity, monotonicity, sub-additivity) and section
9 leaves the closed form open, asking for any monotone, sub-additive,
order-independent reduction.  We realize it as the sorted
geometric-weight reduction: the values are sorted in descending order and
the `i`-th largest is scaled by `w ^ i`, so additional weak contributions
matter less as more accumulate. -/

/-- Descending insertion sort, making the reduction order-independent. -/
def sortDesc (l : List ℚ) : List ℚ :=
  List.insertionSort (· ≥ ·) l

/-- Weighted reduction: `geomSum w [v₀, v₁, …] = v₀ + w*v₁ + w²*v₂ + …`,
written in Horner form. -/
def geomSum (w : ℚ) : List ℚ → ℚ
  | [] => 0
  | x :: xs => x + w * geomSum w xs

/-- The combined magnitude of a nonempty list of values under weight `w`. -/
def combineValues (w : ℚ) (l : List ℚ) : ℚ :=
  geomSum w (sortDesc l)

/-- Modelled from the spec: `combine(context, values, weight)` from the
missing `process.ts`.  Fails with `EmptyCombineInput` on an empty value
list (section 4.3), otherwise reduces with `combineValues`. -/
def combine (_context : Context) (values : List ℚ) (w : ℚ) : Except Err ℚ :=
  if values.isEmpty then .error .emptyCombineInput
  else .ok (combineValues w values)

/-! ### JavaScript `Map` as an insertion-ordered association list -/

/-- JavaScript `Map.set`: overwrite in place if the key is present
(keeping its position), otherwise append at the end. -/
def mapSet [DecidableEq κ] (m : List (κ × α)) (k : κ) (v : α) : List (κ × α) :=
  match m with
  | [] => [(k, v)]
  | (k', v') :: rest =>
    if k' = k then (k, v) :: rest else (k', v') :: mapSet rest k v

/-- JavaScript `Map.get`: the value at the first (hence unique) matching key. -/
def mapGet [DecidableEq κ] (m : List (κ × α)) (k : κ) : Option α :=
  match m with
  | [] => none
  | (k', v) :: rest => if k' = k then some v else mapGet rest k

/-! ### Entity graph model (`src/data.ts`) -/

/-- `data.ts` `Entry`: a media node owning a map from child `EntryId` to the
edge matrix (`DAH_meta` omitted, see the header). -/
structure Entry where
  id : EntryId
  children : List (EntryId × EMatrix)
deriving DecidableEq

/-- `data.ts` `Impact` as consumed by the engine: contributor edges plus a
per-factor score vector. -/
structure Impact where
  contributors : List (EntryId × EMatrix)
  score : EVector
deriving DecidableEq

/-- `data.ts` `Relation`: contributor edges plus reference edges. -/
structure Relation where
  contributors : List (EntryId × EMatrix)
  references : List (EntryId × EMatrix)
deriving DecidableEq

/-- `data.ts` `Data`: the full snapshot fed to one aggregation run. -/
structure Data where
  entries : List (EntryId × Entry)
  impacts : List Impact
  relations : List Relation
deriving DecidableEq

/-- `data.ts` `indexEntry`: build the `EntryId → Entry` lookup by `Map.set`-ing
each entry under its own `id`, in iteration order. -/
def indexEntry (entries : List Entry) : List (EntryId × Entry) :=
  entries.foldl (fun m e => mapSet m e.id e) []

/-! ### Propagation / aggregation engine

Modelled from the spec: the engine lives in the missing `process.ts`.
Section 4.5: (1) verify every referenced id resolves in the entry index,
else `DanglingReference`; (2) the children graph must be a DAG, else
`CyclicEntryGraph`; (3) process entries in reverse topological order
(children before parents); (4)/(5) per factor, reduce the magnitudes
contributed by impacts, relations and matrix-transformed child scores
with Combine, weighted by the factor's `subscoreWeight`.  Steps (2)/(3)
are modelled by repeated removal of children-complete entries, which
yields the reverse topological order and errors exactly when the children
relation is not acyclic. -/

/-- Every id referenced by an entry's children or an impact/relation's
contributor/reference maps, in snapshot order. -/
def referencedIds (data : Data) : List EntryId :=
  (data.entries.map (fun p => p.2.children.map Prod.fst)).flatten
    ++ (data.impacts.map (fun i => i.contributors.map Prod.fst)).flatten
    ++ (data.relations.map (fun r =>
          r.contributors.map Prod.fst ++ r.references.map Prod.fst)).flatten

/-- First referenced id that is absent from the entry index, if any. -/
def findDangling (data : Data) : Option EntryId :=
  (referencedIds data).find? (fun i => (mapGet data.entries i).isNone)

/-- The child ids of the entry stored under `v` (empty if `v` is absent). -/
def childIds (entries : List (EntryId × Entry)) (v : EntryId) : List EntryId :=
  match mapGet entries v with
  | some e => e.children.map Prod.fst
  | none => []

/-- An entry is ready for the reverse topological order once none of its
children is still waiting. -/
def entryReady (entries : List (EntryId × Entry)) (remaining : List EntryId)
    (v : EntryId) : Bool :=
  (childIds entries v).all (fun c => !(remaining.contains c))

/-- Reverse topological ordering by repeated removal: emit every ready
entry, recurse on the rest; if nothing is ready the children relation has
a cycle and the whole run fails with `CyclicEntryGraph` (spec section
4.5 step 2, section 7). -/
def topoLoop (entries : List (EntryId × Entry)) :
    Nat → List EntryId → Except Err (List EntryId)
  | 0, remaining =>
    if remaining.isEmpty then .ok [] else .error .cyclicEntryGraph
  | fuel + 1, remaining =>
    if remaining.isEmpty then .ok []
    else
      let ready := remaining.filter (entryReady entries remaining)
      if ready.isEmpty then .error .cyclicEntryGraph
      else
        match topoLoop entries fuel
            (remaining.filter (fun v => !entryReady entries remaining v)) with
        | .error e => .error e
        | .ok rest => .ok (ready ++ rest)

/-- Children-before-parents processing order for the whole snapshot. -/
def topoOrder (data : Data) : Except Err (List EntryId) :=
  topoLoop data.entries data.entries.length (data.entries.map Prod.fst)

/-- Matrix application (spec section 4.2): scalar and diagonal kinds act
component-wise, the full kind is a dot product per output row. -/
def applyMatrix (m : EMatrix) (v : EVector) : EVector :=
  match m with
  | .scalar c => v.map (fun x => c * x)
  | .diagonal d => List.zipWith (· * ·) d v
  | .full rows => rows.map (fun row => (List.zipWith (· * ·) row v).sum)

/-- Per-factor reduction used by the engine: Combine when there are
contributions, and the zero magnitude when there are none (an entry with
no impacts, relations or children scores zero). -/
def combineOrZero (w : ℚ) (values : List ℚ) : ℚ :=
  if values.isEmpty then 0 else combineValues w values

/-- All vector contributions to entry `e` (spec section 4.5 steps 4/6):
impacts contributing to `e`, relations referencing `e` (their magnitude is
underdetermined by the spec — section 9 open question — and is modelled
as the edge matrix applied to the zero vector), and the already-computed
child scores transformed by their edge matrices. -/
def entryContributions (context : Context) (data : Data)
    (scores : List (EntryId × EVector)) (e : Entry) : List EVector :=
  (data.impacts.filterMap (fun imp =>
      (mapGet imp.contributors e.id).map (fun m => applyMatrix m imp.score)))
    ++ (data.relations.filterMap (fun r =>
      (mapGet r.references e.id).map (fun m =>
        applyMatrix m (newZeroEVector context))))
    ++ (e.children.map (fun c =>
      applyMatrix c.2 ((mapGet scores c.1).getD (newZeroEVector context))))

/-- The score vector of one entry: per factor, Combine over that factor's
contributed magnitudes, weighted by the factor's `subscoreWeight` (spec
section 4.5 step 5). -/
def entryScore (context : Context) (data : Data)
    (scores : List (EntryId × EVector)) (e : Entry) : EVector :=
  let contribs := entryContributions context data scores e
  (List.range context.factorCount).map (fun i =>
    combineOrZero (context.subscoreWeights.getD i 0)
      (contribs.map (fun v => v.getD i 0)))

/-- The propagation engine: batch, all-or-nothing recomputation from a
full snapshot (spec sections 4.5, 7); an error produces no score for any
entry. -/
def processData (context : Context) (data : Data) :
    Except Err (List (EntryId × EVector)) :=
  match findDangling data with
  | some i => .error (.danglingReference i)
  | none =>
    match topoOrder data with
    | .error e => .error e
    | .ok order =>
      .ok (order.foldl (fun scores i =>
        match mapGet data.entries i with
        | some e => mapSet scores i (entryScore context data scores e)
        | none => scores) [])

/-! ### Extension dependency resolver

Modelled from the spec: the resolver lives in the missing `ext.ts`.
Section 4.6: each extension declares dependency names; a topological sort
initializes every extension strictly after its prerequisites; a missing
name or a dependency cycle fails with `ExtensionDependencyError`. -/

/-- An extension as the resolver sees it: its name and its declared
dependency names (spec section 9 capability interface). -/
structure ExtDecl where
  name : String
  deps : List String
deriving DecidableEq

/-- The declared names of a list of extensions. -/
def extNames (exts : List ExtDecl) : List String :=
  exts.map ExtDecl.name

/-- An extension may be initialized once all its dependencies have been. -/
def extReady (doneNames : List String) (e : ExtDecl) : Bool :=
  e.deps.all (fun d => doneNames.contains d)

/-- Topological sort by repeated removal: initialize every ready
extension after the ones already done; if none is ready the declarations
are cyclic and resolution fails. -/
def resolveLoop : Nat → List ExtDecl → List ExtDecl → Except Err (List ExtDecl)
  | 0, done, pending =>
    if pending.isEmpty then .ok done else .error .extensionDependencyError
  | fuel + 1, done, pending =>
    if pending.isEmpty then .ok done
    else
      let ready := pending.filter (extReady (extNames done))
      if ready.isEmpty then .error .extensionDependencyError
      else
        resolveLoop fuel (done ++ ready)
          (pending.filter (fun e => !extReady (extNames done) e))

/-- The resolver: reject unknown dependency names up front, then order
the extensions topologically. -/
def resolveExtensions (exts : List ExtDecl) : Except Err (List ExtDecl) :=
  if exts.all (fun e => e.deps.all (fun d => (extNames exts).contains d)) then
    resolveLoop exts.length [] exts
  else .error .extensionDependencyError

/-- `DAH_standards.ts` `dependencies()`: the extension requires exactly
`DAH_factors`. -/
def DAH_standards_dependencies : List String :=
  ["DAH_factors"]

/-! ### The DAH_standards extension (`src/exts/DAH_standards.ts`)

The constructors below are translated from the source file.  JavaScript
numbers are modelled as `Option ℝ` (`JSNum`): `none` stands for a
non-finite value — `NaN` from `Math.pow` of a negative base with the
fractional exponents in play (`0.9`, `1.3` and the factor weights), or
`NaN`/`±Infinity` from division by zero.  Inputs that the source receives
as finite numbers (user-supplied factors, weights, dates) are rationals. -/

/-- A JavaScript number that may be non-finite. -/
abbrev JSNum := Option ℝ

/-- A finite JavaScript number. -/
noncomputable def jofRat (q : ℚ) : JSNum := some (q : ℝ)

/-- JavaScript multiplication; non-finite operands propagate. -/
noncomputable def jmul : JSNum → JSNum → JSNum
  | some a, some b => some (a * b)
  | _, _ => none

/-- JavaScript division; a zero divisor yields a non-finite value
(`±Infinity`, or `NaN` for `0/0`). -/
noncomputable def jdiv : JSNum → JSNum → JSNum
  | some a, some b => if b = 0 then none else some (a / b)
  | _, _ => none

/-- JavaScript `Math.pow` with a non-integral exponent: `NaN` on a
negative base, otherwise the real power. -/
noncomputable def jpow (x : ℚ) (y : ℝ) : JSNum :=
  if x < 0 then none else some (Real.rpow (x : ℝ) y)

/-- A factor handle as `DAH_standards.ts` uses it: a stable index into
the score vector plus a display name (`DAH_factors.ts` is not in the
source tree; spec section 3). -/
structure Factor where
  name : String
  factorIndex : Nat
deriving DecidableEq

/-- Modelled from the spec: the factor catalog of the missing
`DAH_factors.ts`.  Only the constants `DAH_standards.ts` reads are
modelled, as abstract data threaded through explicitly (spec section 9):
the `Emotion` class `subscoreWeight` used by `combine`, the emotion
factors `AP` and `MP`, and their `factorWeight` exponents. -/
structure Factors where
  emotionSubscoreWeight : ℚ
  AP : Factor
  MP : Factor
  APfactorWeight : ℝ
  MPfactorWeight : ℝ

/-- Extension-side score vector: one possibly-non-finite magnitude per
factor. -/
abbrev JVector := List JSNum

/-- `newZeroVector` as the extension consumes it: all-zero, finite. -/
noncomputable def newZeroJVector (context : Context) : JVector :=
  List.replicate context.factorCount (jofRat 0)

/-- The `vector(context, values)` helper of `DAH_standards.ts`: start
from the zero vector and assign each listed factor's magnitude. -/
noncomputable def vectorOf (context : Context) (values : List (Factor × ℚ)) : JVector :=
  values.foldl (fun vec fv => vec.set fv.1.factorIndex (jofRat fv.2))
    (newZeroJVector context)

/-- An `Impact` as `DAH_standards.ts` constructs it: contributor weights
are plain numbers (`Contributors = Map<Id, number>`) and the score vector
is float-valued (`DAH_meta` omitted, see the header). -/
structure SImpact where
  contributors : List (EntryId × ℚ)
  score : JVector

/-- `Sign` enum: `Positive = 1`, `Negative = -1`. -/
inductive Sign where
  | positive
  | negative
deriving DecidableEq

/-- The numeric value of a `Sign`. -/
def Sign.val : Sign → ℚ
  | .positive => 1
  | .negative => -1

/-- Modelled from the spec: `assert` from the missing `utils.ts`; throws
the message when the condition fails (spec section 7: callers of Combine
must guard, e.g. refuse to construct an Impact with no emotions). -/
def assertCond (cond : Prop) [Decidable cond] (msg : String) : Except Err Unit :=
  if cond then .ok () else .error (.validation msg)

/-- `mapClampThrow(inp, iMin, iMax, oMin, oMax)` translated literally:
`factor = (inp - iMin) / (inp - iMax)` (the source divides by
`inp - iMax`), throw when `factor` is outside `[0, 1]`, else map it onto
`[oMin, oMax]`.  When `inp = iMax` the float division by zero yields
`±Infinity`, which fails the `[0, 1]` check; every call site passes
`iMin = 0, iMax = 1`, so the `NaN` case `inp = iMin = iMax` never
arises. -/
def mapClampThrow (inp iMin iMax oMin oMax : ℚ) : Except Err ℚ :=
  if inp = iMax then .error (.validation "value out of bounds")
  else
    let factor := (inp - iMin) / (inp - iMax)
    if factor < 0 ∨ 1 < factor then .error (.validation "value out of bounds")
    else .ok (oMin + (oMax - oMin) * factor)

/-- `#emotionVector(context, baseScore, emotions)`: assert the emotion
list is nonempty, combine the emotion weights under the `Emotion`
subscore weight, then score each listed emotion factor with
`baseScore * pow(factor, 0.9) / combinedFactor`. -/
noncomputable def emotionVector (F : Factors) (context : Context)
    (baseScore : JSNum) (emotions : List (Factor × ℚ)) : Except Err JVector :=
  match assertCond (0 < emotions.length) "empty emotion list" with
  | .error e => .error e
  | .ok _ =>
    match combine context (emotions.map Prod.snd) F.emotionSubscoreWeight with
    | .error e => .error e
    | .ok combinedFactor =>
      .ok (emotions.foldl (fun vec ef =>
          vec.set ef.1.factorIndex
            (jdiv (jmul baseScore (jpow ef.2 0.9)) (jofRat combinedFactor)))
        (newZeroJVector context))

/-- `emotion(context, contributors, base, emotions, …)`: the generic
emotion impact constructor. -/
noncomputable def emotion (F : Factors) (context : Context)
    (contributors : List (EntryId × ℚ)) (base : JSNum)
    (emotions : List (Factor × ℚ)) : Except Err SImpact :=
  match emotionVector F context base emotions with
  | .error e => .error e
  | .ok score => .ok ⟨contributors, score⟩

/-- `cry(context, contributors, emotions)`: emotion impact with base 4.0. -/
noncomputable def cry (F : Factors) (context : Context)
    (contributors : List (EntryId × ℚ)) (emotions : List (Factor × ℚ)) :
    Except Err SImpact :=
  emotion F context contributors (jofRat 4) emotions

/-- A `DatePeriod`: either a `DurationPeriod` holding an explicit luxon
`Duration` (modelled in milliseconds) or a `FromToPeriod` of two
`DateTime` instants (modelled in epoch milliseconds). -/
inductive DatePeriod where
  | duration (len : ℚ)
  | fromto (f t : ℚ)
deriving DecidableEq

/-- Length of one `DatePeriod` in milliseconds.  `DateTime`s are instants
in epoch milliseconds; luxon's `from.diff(to)` is `from - to`, exactly as
`#periodLength` computes it. -/
def periodLength : DatePeriod → ℚ
  | .duration len => len
  | .fromto f t => f - t

/-- `#periodsLength(periods)`: the sum of the period lengths, starting
from `Duration.fromMillis(0)`. -/
def periodsLength (periods : List DatePeriod) : ℚ :=
  periods.foldl (fun acc p => acc + periodLength p) 0

/-- `duration.as("days")`: milliseconds divided by 86,400,000. -/
def durationAsDays (ms : ℚ) : ℚ :=
  ms / 86400000

/-- The day count a period list feeds into the base-score computations of
`pads`, `waifu` and `meme`. -/
def periodsDays (periods : List DatePeriod) : ℚ :=
  durationAsDays (periodsLength periods)

/-- The base magnitude of a `pads` impact as a function of the day count:
`0.3 * Math.pow(Math.min(10, days), 1.3)`. -/
noncomputable def padsBase (days : ℚ) : JSNum :=
  jmul (jofRat 0.3) (jpow (min 10 days) 1.3)

/-- `pads(context, contributors, periods, emotions)`: period-accumulated
emotion impact with the clamped power-law base. -/
noncomputable def pads (F : Factors) (context : Context)
    (contributors : List (EntryId × ℚ)) (periods : List DatePeriod)
    (emotions : List (Factor × ℚ)) : Except Err SImpact :=
  emotion F context contributors (padsBase (periodsDays periods)) emotions

/-- `xei(...)`: the common emotion-impact path of `aei`/`nei` (its
`factor`/`sign` arguments only feed metadata and are dropped here). -/
noncomputable def xei (F : Factors) (context : Context)
    (contributors : List (EntryId × ℚ)) (base : JSNum)
    (emotions : List (Factor × ℚ)) : Except Err SImpact :=
  emotion F context contributors base emotions

/-- `aei(context, contributors, factor, sign, emotions)`: base is
`mapClampThrow(|factor|, 0, 1, 2, 3) * sign`. -/
noncomputable def aei (F : Factors) (context : Context)
    (contributors : List (EntryId × ℚ)) (factor : ℚ) (sign : Sign)
    (emotions : List (Factor × ℚ)) : Except Err SImpact :=
  match mapClampThrow |factor| 0 1 2 3 with
  | .error e => .error e
  | .ok b => xei F context contributors (jofRat (b * sign.val)) emotions

/-- `nei(context, contributors, factor, sign, emotions)`: base is
`mapClampThrow(|factor|, 0, 1, 0, 2) * sign`. -/
noncomputable def nei (F : Factors) (context : Context)
    (contributors : List (EntryId × ℚ)) (factor : ℚ) (sign : Sign)
    (emotions : List (Factor × ℚ)) : Except Err SImpact :=
  match mapClampThrow |factor| 0 1 0 2 with
  | .error e => .error e
  | .ok b => xei F context contributors (jofRat (b * sign.val)) emotions

/-- `epi(context, contributors, factor)`: base is
`mapClampThrow(factor, 0, 1, 3.5, 4.5)`, scored on `AP`. -/
noncomputable def epi (F : Factors) (context : Context)
    (contributors : List (EntryId × ℚ)) (factor : ℚ) : Except Err SImpact :=
  match mapClampThrow factor 0 1 3.5 4.5 with
  | .error e => .error e
  | .ok b => emotion F context contributors (jofRat b) [(F.AP, 1)]

/-- `waifu(context, contributors, waifu, periods)`: base is
`1.2 * Math.pow(days / 90, MP.factorWeight)`, scored on `MP` (the waifu
name only feeds metadata and is dropped here). -/
noncomputable def waifu (F : Factors) (context : Context)
    (contributors : List (EntryId × ℚ)) (periods : List DatePeriod) :
    Except Err SImpact :=
  let days := periodsDays periods
  emotion F context contributors
    (jmul (jofRat 1.2) (jpow (days / 90) F.MPfactorWeight)) [(F.MP, 1)]

/-- `meme(context, contributors, strength, periods)`: throw unless
`0 ≤ strength < 2` (the source tests `strength < 0.0 || strength >= 2.0`),
then base is `strength * Math.pow(days / 120, AP.factorWeight) * 4.0`,
scored on `AP`. -/
noncomputable def meme (F : Factors) (context : Context)
    (contributors : List (EntryId × ℚ)) (strength : ℚ)
    (periods : List DatePeriod) : Except Err SImpact :=
  if strength < 0 ∨ 2 ≤ strength then
    .error (.validation "strength not in [0, 2] range")
  else
    let days := periodsDays periods
    emotion F context contributors
      (jmul (jmul (jofRat strength) (jpow (days / 120) F.APfactorWeight))
        (jofRat 4))
      [(F.AP, 1)]

/-- `osuSong(context, contributors, personal, community)`: both inputs
are range-mapped through `mapClampThrow` and their images summed on `AP`. -/
noncomputable def osuSong (F : Factors) (context : Context)
    (contributors : List (EntryId × ℚ)) (personal community : ℚ) :
    Except Err SImpact :=
  match mapClampThrow personal 0 1 0 0.5 with
  | .error e => .error e
  | .ok personalFactor =>
    match mapClampThrow community 0 1 0 0.2 with
    | .error e => .error e
    | .ok communityFactor =>
      .ok ⟨contributors, vectorOf context [(F.AP, personalFactor + communityFactor)]⟩

/-! ### Concrete fixtures used by witnesses -/

/-- A concrete two-factor catalog for witness instantiation (the actual
constants of `DAH_factors.ts` are unknown; every claim proved below holds
for all catalogs). -/
def F0 : Factors :=
  ⟨6/10, ⟨"AP", 0⟩, ⟨"MP", 1⟩, 1, 1⟩

/-- A concrete two-factor context for witness instantiation. -/
def ctx0 : Context :=
  ⟨2, [1/2, 1/2]⟩

/-- A snapshot whose two entries reference each other (`A → B → A`). -/
def dataAB : Data :=
  ⟨[("A", ⟨"A", [("B", .scalar 1)]⟩), ("B", ⟨"B", [("A", .scalar 1)]⟩)], [], []⟩

/-- The `DAH_factors` extension as the resolver sees it: no dependencies. -/
def extF : ExtDecl :=
  ⟨"DAH_factors", []⟩

/-- The `DAH_standards` extension as the resolver sees it, with its
declared dependency list from the source. -/
def extS : ExtDecl :=
  ⟨"DAH_standards", DAH_standards_dependencies⟩

/-- Positions of declared dependencies in a resolved initialization
order: however the list is split at an extension, every dependency name
of that extension is already among the names to its left. -/
def DepsBefore (L : List ExtDecl) : Prop :=
  ∀ l₁ e l₂, L = l₁ ++ e :: l₂ → ∀ d ∈ e.deps, d ∈ extNames l₁

/-! ## Theorems -/

/-! ### Association-map lemmas -/

theorem mapGet_mapSet [DecidableEq κ] (m : List (κ × α)) (k : κ) (v : α)
    (q : κ) :
    mapGet (mapSet m k v) q = if k = q then some v else mapGet m q := by
  induction m with
  | nil =>
    by_cases hq : k = q <;> simp [mapSet, mapGet, hq]
  | cons p rest ih =>
    obtain ⟨k', v'⟩ := p
    by_cases hk : k' = k
    · subst hk
      by_cases hq : k' = q <;> simp [mapSet, mapGet, hq]
    · by_cases hq : k' = q
      · subst hq
        have hkq : k ≠ k' := Ne.symm hk
        simp [mapSet, mapGet, hk, hkq]
      · simp [mapSet, mapGet, hk, hq, ih]

theorem indexEntry_concat (l : List Entry) (e : Entry) :
    indexEntry (l ++ [e]) = mapSet (indexEntry l) e.id e := by
  simp [indexEntry, List.foldl_append]

/-- C2: `indexEntry` keys each entry by its own `id` and is
last-write-wins on duplicate ids — looking up `k` in the built map finds
exactly the last entry (in iteration order) whose `id` is `k`, with no
error on duplicates. -/
theorem indexEntry_lastWriteWins (entries : List Entry) (k : EntryId) :
    mapGet (indexEntry entries) k
      = entries.reverse.find? (fun e => e.id == k) := by
  induction entries using List.reverseRecOn with
  | nil => simp [indexEntry, mapGet]
  | append_singleton l e ih =>
    rw [indexEntry_concat, mapGet_mapSet]
    by_cases h : e.id = k
    · simp [h]
    · simp [h, ih]

/-! ### C5: Combine identity law -/

/-- C5: for every context, single value `v` and weight `w`,
`combine(context, [v], w)` returns exactly `v`. -/
theorem combine_singleton_identity (context : Context) (v w : ℚ) :
    combine context [v] w = .ok v := by
  simp [combine, combineValues, sortDesc, geomSum]

/-! ### C1: the range-clamping helper rejects in-range inputs -/

/-- C1 (code bug): the claim says a constructor routed through
`mapClampThrow` raises exactly on inputs outside `[0, 1]`.  The source
divides by `inp - iMax` instead of `iMax - iMin`, so `epi` with the
in-range factor `0.5` throws, while `epi` with the out-of-range factor
`-1` constructs an Impact without error. -/
theorem mapClamp_range_check_inverted :
    isErr (epi F0 ctx0 [] (1/2)) = true ∧ isErr (epi F0 ctx0 [] (-1)) = false := by
  constructor
  · have h : mapClampThrow (1/2) 0 1 3.5 4.5
        = .error (.validation "value out of bounds") := by
      norm_num [mapClampThrow]
    simp only [epi, h]
    rfl
  · have h : mapClampThrow (-1 : ℚ) 0 1 3.5 4.5 = .ok 4 := by
      norm_num [mapClampThrow]
    simp only [epi, h]
    simp [emotion, emotionVector, assertCond, combine, isErr]

/-! ### C3: the meme strength check is half-open -/

/-- C3 (amended): constructing a `meme` impact raises a validation error
exactly when the strength is outside the half-open range `[0, 2)` — i.e.
when `strength < 0` or `strength ≥ 2` — and for every strength inside
`[0, 2)` no error is raised, regardless of the period list. -/
theorem meme_error_iff (F : Factors) (context : Context)
    (contributors : List (EntryId × ℚ)) (strength : ℚ)
    (periods : List DatePeriod) :
    isErr (meme F context contributors strength periods) = true ↔
      (strength < 0 ∨ 2 ≤ strength) := by
  by_cases h : strength < 0 ∨ 2 ≤ strength
  · simp only [meme, if_pos h, isErr]
    exact iff_of_true (by trivial) h
  · have hok : isErr (meme F context contributors strength periods) = false := by
      simp only [meme, if_neg h]
      simp [emotion, emotionVector, assertCond, combine, isErr]
    rw [hok]
    simp [h]

/-- C3 (counterexample): strength `2` lies inside the closed range
`[0, 2]` that the claim names, yet `meme` throws. -/
theorem meme_strength_two_throws :
    isErr (meme F0 ctx0 [] 2 []) = true ∧ (0 : ℚ) ≤ 2 ∧ (2 : ℚ) ≤ 2 := by
  refine ⟨?_, by norm_num, le_refl 2⟩
  simp [meme, isErr]

/-! ### C4: empty emotion lists never construct an Impact -/

/-- C4: `emotion` and every constructor delegating to it (`cry`, `pads`,
`aei`, `nei`) fails when invoked with an empty list of weighted emotions,
so an Impact with zero contributions never reaches Combine. -/
theorem empty_emotion_list_always_throws (F : Factors) (context : Context)
    (contributors : List (EntryId × ℚ)) (base : JSNum)
    (periods : List DatePeriod) (factor : ℚ) (sign : Sign) :
    isErr (emotion F context contributors base []) = true ∧
    isErr (cry F context contributors []) = true ∧
    isErr (pads F context contributors periods []) = true ∧
    isErr (aei F context contributors factor sign []) = true ∧
    isErr (nei F context contributors factor sign []) = true := by
  have hemo : ∀ b : JSNum, isErr (emotion F context contributors b []) = true := by
    intro b
    simp [emotion, emotionVector, assertCond, isErr]
  refine ⟨hemo _, hemo _, hemo _, ?_, ?_⟩
  · cases h : mapClampThrow |factor| 0 1 2 3 with
    | error e => simp [aei, h, isErr]
    | ok b => simp [aei, h, xei, hemo]
  · cases h : mapClampThrow |factor| 0 1 0 2 with
    | error e => simp [nei, h, isErr]
    | ok b => simp [nei, h, xei, hemo]

/-! ### C9: forward from/to periods yield negative day counts -/

/-- C9: `#periodLength` of a `FromToPeriod` is `from.diff(to)`, i.e.
`from - to`; when `to` is strictly later than `from` this duration is
strictly negative, so a single forward-ordered period feeds a strictly
negative day count into the base-score computations of `pads`, `waifu`
and `meme`. -/
theorem fromto_period_negative_days (f t : ℚ) (h : f < t) :
    periodLength (.fromto f t) = f - t ∧
    periodLength (.fromto f t) < 0 ∧
    periodsDays [.fromto f t] < 0 := by
  refine ⟨rfl, by simpa [periodLength] using sub_neg.mpr h, ?_⟩
  have hlen : periodsLength [.fromto f t] = f - t := by
    simp [periodsLength, periodLength]
  have hneg : periodsLength [.fromto f t] < 0 := by
    rw [hlen]; exact sub_neg.mpr h
  have : periodsDays [.fromto f t] = periodsLength [.fromto f t] / 86400000 := rfl
  rw [this]
  exact div_neg_of_neg_of_pos hneg (by norm_num)

/-- C9 witness at the concrete forward period from epoch `0` to one day
later. -/
theorem fromto_period_negative_days_witness :
    (0 : ℚ) < 86400000 ∧ periodsDays [.fromto 0 86400000] < 0 :=
  ⟨by norm_num, (fromto_period_negative_days 0 86400000 (by norm_num)).2.2⟩

/-! ### C10: the pads base bound -/

/-- C10 (counterexample): the claim's bound fails for a period list whose
total length is negative — a single forward-ordered from/to period of two
days gives `days = -2`, `Math.pow(-2, 1.3)` is `NaN`, and the pads base is
non-finite rather than a number bounded by `0.3 * 10^1.3`. -/
theorem pads_base_unbounded_on_forward_period :
    ¬ ∃ b : ℝ, padsBase (periodsDays [.fromto 0 172800000]) = some b ∧
        b ≤ (0.3 : ℝ) * Real.rpow 10 1.3 := by
  have hdays : periodsDays [.fromto 0 172800000] = -2 := by
    norm_num [periodsDays, periodsLength, periodLength, durationAsDays]
  have hmin : min (10 : ℚ) (-2) = -2 := by norm_num
  have hnone : padsBase (periodsDays [.fromto 0 172800000]) = none := by
    rw [hdays]
    simp [padsBase, jpow, hmin, jmul, jofRat]
  simp [hnone]

/-- C10 (amended): for every period list whose total length in days is
nonnegative, the pads base magnitude is a finite number bounded above by
`0.3 * 10^1.3`: the day count is clamped to at most `10` before the
power-law mapping. -/
theorem pads_base_bounded_for_nonneg_days (periods : List DatePeriod)
    (h : 0 ≤ periodsDays periods) :
    ∃ b : ℝ, padsBase (periodsDays periods) = some b ∧
      b ≤ (0.3 : ℝ) * Real.rpow 10 1.3 := by
  set d := periodsDays periods with hd
  have hmin0 : (0 : ℚ) ≤ min 10 d := le_min (by norm_num) h
  have hnotlt : ¬ (min 10 d < 0) := not_lt.mpr hmin0
  refine ⟨((0.3 : ℚ) : ℝ) * Real.rpow ((min 10 d : ℚ) : ℝ) 1.3, ?_, ?_⟩
  · simp [padsBase, jpow, hnotlt, jmul, jofRat]
  · have hcast0 : (0 : ℝ) ≤ ((min 10 d : ℚ) : ℝ) := by exact_mod_cast hmin0
    have hcast10 : ((min 10 d : ℚ) : ℝ) ≤ 10 := by
      have h10 : min (10 : ℚ) d ≤ 10 := min_le_left _ _
      exact_mod_cast h10
    have hpow : Real.rpow ((min 10 d : ℚ) : ℝ) 1.3 ≤ Real.rpow 10 1.3 :=
      Real.rpow_le_rpow hcast0 hcast10 (by norm_num)
    have hq : ((0.3 : ℚ) : ℝ) = (0.3 : ℝ) := by norm_num
    rw [hq]
    exact mul_le_mul_of_nonneg_left hpow (by norm_num)

/-- C10 witness at a one-day duration period. -/
theorem pads_base_bounded_for_nonneg_days_witness :
    (0 : ℚ) ≤ periodsDays [.duration 86400000] ∧
    ∃ b : ℝ, padsBase (periodsDays [.duration 86400000]) = some b ∧
      b ≤ (0.3 : ℝ) * Real.rpow 10 1.3 :=
  ⟨by norm_num [periodsDays, periodsLength, periodLength, durationAsDays],
   pads_base_bounded_for_nonneg_days [.duration 86400000]
     (by norm_num [periodsDays, periodsLength, periodLength, durationAsDays])⟩

/-! ### C7: cycles abort the whole run -/

theorem topoLoop_cycle_error (entries : List (EntryId × Entry))
    (C : List EntryId) (hne : C ≠ [])
    (hsucc : ∀ c ∈ C, ∃ c' ∈ C, c' ∈ childIds entries c) :
    ∀ fuel remaining, (∀ c ∈ C, c ∈ remaining) →
      topoLoop entries fuel remaining = .error .cyclicEntryGraph := by
  have hnonempty : ∀ remaining : List EntryId,
      (∀ c ∈ C, c ∈ remaining) → remaining.isEmpty = false := by
    intro remaining hmem
    obtain ⟨c, hc⟩ := List.exists_mem_of_ne_nil C hne
    rcases remaining with _ | _
    · exact absurd (hmem c hc) (List.not_mem_nil c)
    · rfl
  intro fuel
  induction fuel with
  | zero =>
    intro remaining hmem
    simp [topoLoop, hnonempty remaining hmem]
  | succ fuel ih =>
    intro remaining hmem
    have hready : ∀ c ∈ C, entryReady entries remaining c = false := by
      intro c hc
      obtain ⟨c', hc', hchild⟩ := hsucc c hc
      simp only [entryReady, List.all_eq_false]
      refine ⟨c', hchild, ?_⟩
      simp [hmem c' hc']
    have hmem' : ∀ c ∈ C,
        c ∈ remaining.filter (fun v => !entryReady entries remaining v) := by
      intro c hc
      rw [List.mem_filter]
      exact ⟨hmem c hc, by simp [hready c hc]⟩
    by_cases hr : (remaining.filter (entryReady entries remaining)).isEmpty
    · simp [topoLoop, hnonempty remaining hmem, hr]
    · have hrec := ih (remaining.filter fun v => !entryReady entries remaining v)
        hmem'
      simp [topoLoop, hnonempty remaining hmem, hr, hrec]

/-- C7: for every snapshot that passes the dangling-reference check (spec
section 4.5 runs that check first) and whose entry→children graph has a
cycle — given as a nonempty id set in which every member has a child in
the set — the engine fails with `CyclicEntryGraph` and returns no score
for any entry. -/
theorem cyclic_entry_graph_fails (context : Context) (data : Data)
    (C : List EntryId) (hne : C ≠ [])
    (hdang : findDangling data = none)
    (hkeys : ∀ c ∈ C, c ∈ data.entries.map Prod.fst)
    (hsucc : ∀ c ∈ C, ∃ c' ∈ C, c' ∈ childIds data.entries c) :
    processData context data = .error .cyclicEntryGraph := by
  have htopo := topoLoop_cycle_error data.entries C hne hsucc
    data.entries.length (data.entries.map Prod.fst) hkeys
  simp [processData, hdang, topoOrder, htopo]

/-- C7 witness at the concrete snapshot `A → B → A`. -/
theorem cyclic_entry_graph_fails_witness :
    findDangling dataAB = none ∧
    processData ctx0 dataAB = .error .cyclicEntryGraph :=
  ⟨by rfl,
   cyclic_entry_graph_fails ctx0 dataAB ["A", "B"] (by decide) (by rfl)
     (by decide) (by decide)⟩

/-! ### C8: DAH_standards is initialized after DAH_factors -/

theorem depsBefore_append (L r : List ExtDecl) (hL : DepsBefore L)
    (hr : ∀ e ∈ r, ∀ d ∈ e.deps, d ∈ extNames L) : DepsBefore (L ++ r) := by
  intro l₁ e l₂ hsplit d hd
  rcases List.append_eq_append_iff.mp hsplit with ⟨a', ha₁, ha₂⟩ | ⟨c', hc₁, hc₂⟩
  · have he : e ∈ r := by rw [ha₂]; exact List.mem_append_right a' (List.mem_cons_self e l₂)
    have := hr e he d hd
    rw [ha₁]
    simpa [extNames] using Or.inl (by simpa [extNames] using this)
  · rcases c' with _ | ⟨e', c''⟩
    · have he : e ∈ r := by
        have : e :: l₂ = r := by simpa using hc₂
        rw [← this]; exact List.mem_cons_self e l₂
      have hL₁ : L = l₁ := by simpa using hc₁
      have := hr e he d hd
      rw [← hL₁]; exact this
    · have hee : e = e' ∧ l₂ = c'' ++ r := by
        have := hc₂
        simp only [List.cons_append] at this
        exact ⟨(List.cons.injEq _ _ _ _ ▸ this).1, (List.cons.injEq _ _ _ _ ▸ this).2⟩
      have hsplitL : L = l₁ ++ e :: c'' := by rw [hc₁, hee.1]
      exact hL l₁ e c'' hsplitL d hd

theorem resolveLoop_depsBefore :
    ∀ fuel done pending L, DepsBefore done →
      resolveLoop fuel done pending = .ok L → DepsBefore L := by
  intro fuel
  induction fuel with
  | zero =>
    intro done pending L hdone hres
    by_cases hp : pending.isEmpty
    · simp [resolveLoop, hp] at hres
      rwa [← hres]
    · simp [resolveLoop, hp] at hres
  | succ fuel ih =>
    intro done pending L hdone hres
    by_cases hp : pending.isEmpty
    · simp [resolveLoop, hp] at hres
      rwa [← hres]
    · by_cases hr : (pending.filter (extReady (extNames done))).isEmpty
      · simp [resolveLoop, hp, hr] at hres
      · simp only [resolveLoop, hp, hr, Bool.false_eq_true, if_false,
          if_neg] at hres
        have hready : ∀ e ∈ pending.filter (extReady (extNames done)),
            ∀ d ∈ e.deps, d ∈ extNames done := by
          intro e he d hd
          have := (List.mem_filter.mp he).2
          have hall := List.all_eq_true.mp this d hd
          simpa using hall
        exact ih (done ++ pending.filter (extReady (extNames done)))
          (pending.filter fun e => !extReady (extNames done) e) L
          (depsBefore_append done _ hdone hready) hres

theorem resolveExtensions_depsBefore (exts L : List ExtDecl)
    (hres : resolveExtensions exts = .ok L) : DepsBefore L := by
  have hnil : DepsBefore [] := by
    intro l₁ e l₂ hsplit
    exact absurd hsplit.symm (List.append_ne_nil_of_right_ne_nil l₁ (by simp))
  by_cases hall : exts.all (fun e => e.deps.all (fun d => (extNames exts).contains d))
  · rw [resolveExtensions, if_pos hall] at hres
    exact resolveLoop_depsBefore exts.length [] exts L hnil hres
  · rw [resolveExtensions, if_neg hall] at hres
    exact absurd hres (by simp)

/-- C8: `DAH_standards.dependencies()` is exactly `["DAH_factors"]`, and
in every initialization order produced by the resolver, an extension
declaring those dependencies appears strictly after an extension named
`DAH_factors`. -/
theorem dah_standards_after_dah_factors :
    DAH_standards_dependencies = ["DAH_factors"] ∧
    ∀ exts L l₁ e l₂, resolveExtensions exts = .ok L → L = l₁ ++ e :: l₂ →
      e.name = "DAH_standards" → e.deps = DAH_standards_dependencies →
      "DAH_factors" ∈ extNames l₁ := by
  refine ⟨rfl, ?_⟩
  intro exts L l₁ e l₂ hres hsplit _hname hdeps
  have hdb := resolveExtensions_depsBefore exts L hres
  exact hdb l₁ e l₂ hsplit "DAH_factors"
    (by rw [hdeps]; simp [DAH_standards_dependencies])

/-- C8 witness: resolving the concrete registry
`[DAH_factors, DAH_standards]` puts `DAH_factors` strictly first. -/
theorem dah_standards_after_dah_factors_witness :
    resolveExtensions [extF, extS] = .ok [extF, extS] ∧
    "DAH_factors" ∈ extNames [extF] :=
  ⟨by rfl,
   (dah_standards_after_dah_factors).2 [extF, extS] [extF, extS] [extF] extS []
     (by rfl) rfl rfl rfl⟩

/-! ### C6: diminishing-returns laws of Combine -/

theorem sortDesc_sorted (l : List ℚ) : (sortDesc l).Sorted (· ≥ ·) :=
  List.sorted_insertionSort _ l

theorem sortDesc_perm (l : List ℚ) : List.Perm (sortDesc l) l :=
  List.perm_insertionSort _ l

theorem geomSum_nonneg {w : ℚ} (hw : 0 ≤ w) :
    ∀ {l : List ℚ}, (∀ x ∈ l, 0 ≤ x) → 0 ≤ geomSum w l := by
  intro l
  induction l with
  | nil => intro _; simp [geomSum]
  | cons x xs ih =>
    intro hl
    have hx := hl x (List.mem_cons_self x xs)
    have hxs := ih (fun y hy => hl y (List.mem_cons_of_mem x hy))
    simpa [geomSum] using add_nonneg hx (mul_nonneg hw hxs)

theorem geomSum_le_sum {w : ℚ} (hw0 : 0 ≤ w) (hw1 : w ≤ 1) :
    ∀ {l : List ℚ}, (∀ x ∈ l, 0 ≤ x) → geomSum w l ≤ l.sum := by
  intro l
  induction l with
  | nil => intro _; simp [geomSum]
  | cons x xs ih =>
    intro hl
    have hxs : ∀ y ∈ xs, 0 ≤ y := fun y hy => hl y (List.mem_cons_of_mem x hy)
    have hg0 : 0 ≤ geomSum w xs := geomSum_nonneg hw0 hxs
    have h₁ : w * geomSum w xs ≤ geomSum w xs :=
      mul_le_of_le_one_left hg0 hw1
    have h₂ : geomSum w xs ≤ xs.sum := ih hxs
    simp only [geomSum, List.sum_cons]
    linarith

theorem geomSum_pos {w : ℚ} (hw : 0 ≤ w) {x : ℚ} {xs : List ℚ}
    (hl : ∀ y ∈ x :: xs, 0 < y) : 0 < geomSum w (x :: xs) := by
  have hx := hl x (List.mem_cons_self x xs)
  have hxs : ∀ y ∈ xs, 0 ≤ y :=
    fun y hy => le_of_lt (hl y (List.mem_cons_of_mem x hy))
  have hg0 : 0 ≤ geomSum w xs := geomSum_nonneg hw hxs
  simpa [geomSum] using add_pos_of_pos_of_nonneg hx (mul_nonneg hw hg0)

theorem geomSum_lt_sum {w : ℚ} (hw0 : 0 ≤ w) (hw1 : w < 1) :
    ∀ {l : List ℚ}, 2 ≤ l.length → (∀ x ∈ l, 0 < x) → geomSum w l < l.sum := by
  intro l
  match l with
  | [] => intro h; simp at h
  | [x] => intro h; simp at h
  | x :: y :: xs =>
    intro _ hl
    have hys : ∀ z ∈ y :: xs, 0 < z := fun z hz => hl z (List.mem_cons_of_mem x hz)
    have hgpos : 0 < geomSum w (y :: xs) := geomSum_pos hw0 hys
    have hwg : w * geomSum w (y :: xs) < geomSum w (y :: xs) :=
      mul_lt_of_lt_one_left hgpos hw1
    have hle : geomSum w (y :: xs) ≤ (y :: xs).sum :=
      geomSum_le_sum hw0 (le_of_lt hw1) (fun z hz => le_of_lt (hys z hz))
    have : geomSum w (x :: y :: xs) = x + w * geomSum w (y :: xs) := rfl
    simp only [List.sum_cons] at hle
    simp only [this, List.sum_cons]
    linarith

theorem geomSum_mono {w : ℚ} (hw : 0 ≤ w) {l₁ l₂ : List ℚ}
    (h : List.Forall₂ (· ≤ ·) l₁ l₂) : geomSum w l₁ ≤ geomSum w l₂ := by
  induction h with
  | nil => exact le_refl _
  | cons h₁ h₂ ih =>
    simpa [geomSum] using add_le_add h₁ (mul_le_mul_of_nonneg_left ih hw)

theorem forall2_cons_orderedInsert {x : ℚ} {t₁ t₂ : List ℚ}
    (h : List.Forall₂ (· ≤ ·) t₁ t₂) :
    ∀ {y : ℚ}, y ≤ x → (y :: t₁).Sorted (· ≥ ·) → t₂.Sorted (· ≥ ·) →
      List.Forall₂ (· ≤ ·) (y :: t₁) (List.orderedInsert (· ≥ ·) x t₂) := by
  induction h with
  | nil =>
    intro y hyx _ _
    exact List.Forall₂.cons hyx List.Forall₂.nil
  | @cons a b l₁ l₂ h₁ h₂ ih =>
    intro y hyx hs₁ hs₂
    by_cases hxb : x ≥ b
    · simp only [List.orderedInsert, if_pos hxb]
      exact .cons hyx (.cons h₁ h₂)
    · simp only [List.orderedInsert, if_neg hxb]
      have hxb' : x ≤ b := le_of_lt (lt_of_not_ge hxb)
      have hya : a ≤ y := (List.sorted_cons.mp hs₁).1 a (List.mem_cons_self a l₁)
      refine .cons (le_trans hyx hxb') ?_
      exact ih (le_trans hya hyx) (List.sorted_cons.mp hs₁).2
        (List.sorted_cons.mp hs₂).2

theorem forall2_orderedInsert_cons {x : ℚ} {t₁ t₂ : List ℚ}
    (h : List.Forall₂ (· ≤ ·) t₁ t₂) :
    ∀ {y : ℚ}, x ≤ y → t₁.Sorted (· ≥ ·) → (y :: t₂).Sorted (· ≥ ·) →
      List.Forall₂ (· ≤ ·) (List.orderedInsert (· ≥ ·) x t₁) (y :: t₂) := by
  induction h with
  | nil =>
    intro y hxy _ _
    exact List.Forall₂.cons hxy List.Forall₂.nil
  | @cons a b l₁ l₂ h₁ h₂ ih =>
    intro y hxy hs₁ hs₂
    by_cases hxa : x ≥ a
    · simp only [List.orderedInsert, if_pos hxa]
      exact .cons hxy (.cons h₁ h₂)
    · simp only [List.orderedInsert, if_neg hxa]
      have hxa' : x ≤ a := le_of_lt (lt_of_not_ge hxa)
      have hby : b ≤ y := (List.sorted_cons.mp hs₂).1 b (List.mem_cons_self b l₂)
      refine .cons (le_trans h₁ hby) ?_
      exact ih (le_trans hxa' h₁) (List.sorted_cons.mp hs₁).2
        (List.sorted_cons.mp hs₂).2

theorem forall2_orderedInsert {x₁ x₂ : ℚ} (hx : x₁ ≤ x₂) {s₁ s₂ : List ℚ}
    (h : List.Forall₂ (· ≤ ·) s₁ s₂) :
    s₁.Sorted (· ≥ ·) → s₂.Sorted (· ≥ ·) →
      List.Forall₂ (· ≤ ·) (List.orderedInsert (· ≥ ·) x₁ s₁)
        (List.orderedInsert (· ≥ ·) x₂ s₂) := by
  induction h with
  | nil =>
    intro _ _
    exact List.Forall₂.cons hx List.Forall₂.nil
  | @cons a b l₁ l₂ h₁ h₂ ih =>
    intro hs₁ hs₂
    by_cases hx₁ : x₁ ≥ a <;> by_cases hx₂ : x₂ ≥ b
    · simp only [List.orderedInsert, if_pos hx₁, if_pos hx₂]
      exact .cons hx (.cons h₁ h₂)
    · simp only [List.orderedInsert, if_pos hx₁, if_neg hx₂]
      have hx₂' : x₂ ≤ b := le_of_lt (lt_of_not_ge hx₂)
      refine .cons (le_trans hx hx₂') ?_
      exact forall2_cons_orderedInsert h₂ (le_trans hx₁ hx) hs₁
        (List.sorted_cons.mp hs₂).2
    · simp only [List.orderedInsert, if_neg hx₁, if_pos hx₂]
      refine .cons (le_trans h₁ hx₂) ?_
      have hx₁' : x₁ ≤ a := le_of_lt (lt_of_not_ge hx₁)
      exact forall2_orderedInsert_cons h₂ (le_trans hx₁' h₁)
        (List.sorted_cons.mp hs₁).2 hs₂
    · simp only [List.orderedInsert, if_neg hx₁, if_neg hx₂]
      refine .cons h₁ ?_
      exact ih (List.sorted_cons.mp hs₁).2 (List.sorted_cons.mp hs₂).2

theorem forall2_sortDesc {l₁ l₂ : List ℚ}
    (h : List.Forall₂ (· ≤ ·) l₁ l₂) :
    List.Forall₂ (· ≤ ·) (sortDesc l₁) (sortDesc l₂) := by
  induction h with
  | nil => exact List.Forall₂.nil
  | @cons a b t₁ t₂ h₁ h₂ ih =>
    show List.Forall₂ (· ≤ ·)
      (List.orderedInsert (· ≥ ·) a (sortDesc t₁))
      (List.orderedInsert (· ≥ ·) b (sortDesc t₂))
    exact forall2_orderedInsert h₁ ih (sortDesc_sorted t₁) (sortDesc_sorted t₂)

theorem combineValues_mono {w : ℚ} (hw : 0 ≤ w) {l₁ l₂ : List ℚ}
    (h : List.Forall₂ (· ≤ ·) l₁ l₂) :
    combineValues w l₁ ≤ combineValues w l₂ :=
  geomSum_mono hw (forall2_sortDesc h)

theorem combineValues_le_sum {w : ℚ} (hw0 : 0 ≤ w) (hw1 : w ≤ 1)
    {l : List ℚ} (hl : ∀ x ∈ l, 0 ≤ x) : combineValues w l ≤ l.sum := by
  have hperm := sortDesc_perm l
  have hmem : ∀ x ∈ sortDesc l, 0 ≤ x := fun x hx => hl x (hperm.mem_iff.mp hx)
  calc geomSum w (sortDesc l) ≤ (sortDesc l).sum := geomSum_le_sum hw0 hw1 hmem
    _ = l.sum := hperm.sum_eq

theorem combineValues_lt_sum {w : ℚ} (hw0 : 0 ≤ w) (hw1 : w < 1)
    {l : List ℚ} (hlen : 2 ≤ l.length) (hl : ∀ x ∈ l, 0 < x) :
    combineValues w l < l.sum := by
  have hperm := sortDesc_perm l
  have hmem : ∀ x ∈ sortDesc l, 0 < x := fun x hx => hl x (hperm.mem_iff.mp hx)
  have hlen' : 2 ≤ (sortDesc l).length := by rw [hperm.length_eq]; exact hlen
  calc geomSum w (sortDesc l) < (sortDesc l).sum :=
      geomSum_lt_sum hw0 hw1 hlen' hmem
    _ = l.sum := hperm.sum_eq

theorem sortDesc_replicate (n : ℕ) (v : ℚ) :
    sortDesc (List.replicate n v) = List.replicate n v := by
  induction n with
  | zero => rfl
  | succ n ih =>
    show List.orderedInsert (· ≥ ·) v (sortDesc (List.replicate n v))
      = List.replicate (n + 1) v
    rw [ih]
    cases n with
    | zero => rfl
    | succ m =>
      simp [List.replicate_succ, List.orderedInsert, le_refl]

theorem combineValues_replicate_strict_mono {w v : ℚ} (hw0 : 0 < w)
    (hv : 0 < v) (n : ℕ) :
    combineValues w (List.replicate n v)
      < combineValues w (List.replicate (n + 1) v) := by
  have hg : ∀ m : ℕ, combineValues w (List.replicate m v)
      = geomSum w (List.replicate m v) := fun m => by
    rw [combineValues, sortDesc_replicate]
  rw [hg, hg]
  induction n with
  | zero =>
    simpa [List.replicate_succ, geomSum] using hv
  | succ n ih =>
    rw [List.replicate_succ, List.replicate_succ (n := n + 1)]
    simp only [geomSum]
    exact add_lt_add_left (mul_lt_mul_of_pos_left ih hw0) v

theorem combineValues_replicate_lt {w v : ℚ} (hw0 : 0 ≤ w) (hw1 : w < 1)
    (hv : 0 < v) (n : ℕ) (hn : 2 ≤ n) :
    combineValues w (List.replicate n v) < n * v := by
  have hlen : 2 ≤ (List.replicate n v).length := by
    rw [List.length_replicate]; exact hn
  have hmem : ∀ x ∈ List.replicate n v, 0 < x := by
    intro x hx; rw [List.eq_of_mem_replicate hx]; exact hv
  calc combineValues w (List.replicate n v) < (List.replicate n v).sum :=
      combineValues_lt_sum hw0 hw1 hlen hmem
    _ = n * v := by rw [List.sum_replicate]; exact nsmul_eq_mul n v

/-- C6: for any weight `w` in the diminishing-returns regime `0 < w < 1`,
the Combine reduction is monotonically increasing in each value, bounded
above by the simple sum of nonnegative values, strictly below the simple
sum for `n ≥ 2` strictly positive values, and over `n` copies of a fixed
`v > 0` it strictly increases in `n` while staying below `n * v` for
`n ≥ 2`. -/
theorem combine_diminishing_returns (w : ℚ) (hw0 : 0 < w) (hw1 : w < 1) :
    (∀ (context : Context) (l : List ℚ), l ≠ [] →
        combine context l w = .ok (combineValues w l)) ∧
    (∀ l₁ l₂ : List ℚ, List.Forall₂ (· ≤ ·) l₁ l₂ →
        combineValues w l₁ ≤ combineValues w l₂) ∧
    (∀ l : List ℚ, (∀ x ∈ l, 0 ≤ x) → combineValues w l ≤ l.sum) ∧
    (∀ l : List ℚ, 2 ≤ l.length → (∀ x ∈ l, 0 < x) →
        combineValues w l < l.sum) ∧
    (∀ v : ℚ, 0 < v → ∀ n : ℕ,
        combineValues w (List.replicate n v)
          < combineValues w (List.replicate (n + 1) v)) ∧
    (∀ v : ℚ, 0 < v → ∀ n : ℕ, 2 ≤ n →
        combineValues w (List.replicate n v) < n * v) := by
  refine ⟨?_, ?_, ?_, ?_, ?_, ?_⟩
  · intro context l hl
    rw [combine, if_neg (by simpa [List.isEmpty_iff] using hl)]
  · intro l₁ l₂ h
    exact combineValues_mono (le_of_lt hw0) h
  · intro l hl
    exact combineValues_le_sum (le_of_lt hw0) (le_of_lt hw1) hl
  · intro l hlen hl
    exact combineValues_lt_sum (le_of_lt hw0) hw1 hlen hl
  · intro v hv n
    exact combineValues_replicate_strict_mono hw0 hv n
  · intro v hv n hn
    exact combineValues_replicate_lt (le_of_lt hw0) hw1 hv n hn

/-- C6 witness: at weight `1/2`, the combined magnitude of `[2, 3]` stays
below the simple sum `5`. -/
theorem combine_diminishing_returns_witness :
    combineValues (1/2) [(2 : ℚ), 3] < [(2 : ℚ), 3].sum :=
  (combine_diminishing_returns (1/2) (by norm_num) (by norm_num)).2.2.2.1
    [2, 3] (by norm_num)
    (by intro x hx; rcases List.mem_cons.mp hx with h | h
        · rw [h]; norm_num
        · rw [List.mem_singleton.mp h]; norm_num)
